import Mathlib

/-!
Verification of the PairFinder kernel of this repository.

The kernel under specification is the "find closest/furthest pair of
people by birth date" exercise exercised by
`src/aetion_interview/tests/test_FinderTests.py`, together with the
timestamp normalisation helper `src/aetion_interview/safe_timezone.py`
and the `User` dataclass of `src/aetion/user_management.py`.

The classes `Finder`, `Thing` and `FT` are imported by the test file but
their own source files are not in the repository snapshot; those parts
are modelled from the specification (each such definition carries a
doc comment starting with "Modelled from the spec:").  Where the spec's
prose and its own concrete scenarios disagree (pair ordering), the
model follows the concrete scenarios in spec §8, which coincide with
the expectations of the in-repository test file.
-/

/-! ## Datetimes and `safe_timestamp` (from `src/aetion_interview/safe_timezone.py`) -/

/-- A Python `datetime` at one-second resolution: `wall` is the displayed
wall-clock time encoded as seconds counted from the display
`1970-01-01 00:00:00`, and `tz` is the `utcoffset` of its `tzinfo` in
seconds; `tz = none` models a naive (timezone-unaware) datetime. -/
structure Datetime where
  wall : Int
  tz : Option Int
  deriving DecidableEq, Repr

/-- `dt.replace(tzinfo=timezone.utc)`: attach UTC without moving the wall
clock. -/
def replace_utc (dt : Datetime) : Datetime :=
  { wall := dt.wall, tz := some 0 }

/-- `dt.astimezone(timezone.utc)` on an aware datetime: shift the wall
clock by the offset so that the same instant is displayed in UTC. -/
def astimezone_utc (dt : Datetime) : Datetime :=
  { wall := dt.wall - dt.tz.getD 0, tz := some 0 }

/-- `datetime(1970, 1, 1, tzinfo=timezone.utc)`. -/
def epoch : Datetime :=
  { wall := 0, tz := some 0 }

/-- `(a - b).total_seconds()` for two aware datetimes. -/
def dtSub (a b : Datetime) : Int :=
  (a.wall - a.tz.getD 0) - (b.wall - b.tz.getD 0)

/-- `safe_timestamp` from `src/aetion_interview/safe_timezone.py`:
a naive datetime is reinterpreted as UTC, an aware one is converted to
UTC, and the result is the total-seconds difference from the epoch. -/
def safe_timestamp (dt : Datetime) : Int :=
  dtSub
    (match dt.tz with
     | none => replace_utc dt
     | some _ => astimezone_utc dt)
    epoch

/-- Spec-side comparator: the instant a timestamp denotes, as seconds
since `1970-01-01T00:00:00Z`, a naive timestamp being read as UTC.
Written from the spec's words, to be compared with `safe_timestamp`. -/
def instantUTC (dt : Datetime) : Int :=
  match dt.tz with
  | none => dt.wall
  | some off => dt.wall - off

/-! ## The Finder model -/

/-- Modelled from the spec: the mode enum `FT` (file `FT.py` absent from
the snapshot); `One` selects the closest pair, `Two` the furthest. -/
inductive FT
  | One
  | Two
  deriving DecidableEq, Repr

/-- Modelled from the spec: an entity (`Thing.py` absent from the
snapshot) after timestamp normalisation — a name plus the normalised
timestamp of its birth date, in seconds since the epoch. -/
structure Thing where
  name : String
  birth_date : Int
  deriving DecidableEq, Repr

/-- Modelled from the spec: the per-pair record the scan builds — the
two entities ordered by timestamp and their separation `D`. -/
structure FPair where
  P1 : Thing
  P2 : Thing
  D : Int
  deriving DecidableEq, Repr

/-- Modelled from the spec: the result record `F` with optional fields
`P1`, `P2`, both unset when fewer than two entities were supplied. -/
structure F where
  P1 : Option Thing
  P2 : Option Thing
  deriving DecidableEq, Repr

/-- Modelled from the spec: the candidate record for one pair.  Spec §8's
concrete scenarios (matching the repository's tests) put the entity with
the earlier timestamp in `P1`, so `D = P2.birth_date - P1.birth_date` is
the nonnegative separation; on a timestamp tie the later input entity
comes first. -/
def mkPair (a b : Thing) : FPair :=
  if a.birth_date < b.birth_date then
    { P1 := a, P2 := b, D := b.birth_date - a.birth_date }
  else
    { P1 := b, P2 := a, D := a.birth_date - b.birth_date }

/-- Modelled from the spec: the exhaustive `i < j` scan of §4.1 step 3,
in input order — pairs with the first element outermost. -/
def allPairs : List Thing → List FPair
  | [] => []
  | x :: xs => xs.map (mkPair x) ++ allPairs xs

/-- Modelled from the spec: §4.1 step 4 — fold over the candidates,
replacing the tracked best only on strict inequality (`<` of separations
for `One`, `>` for `Two`), so the earliest candidate wins ties. -/
def pickBest (ft : FT) : FPair → List FPair → FPair
  | ans, [] => ans
  | ans, r :: rs =>
    pickBest ft
      (match ft with
       | FT.One => if r.D < ans.D then r else ans
       | FT.Two => if r.D > ans.D then r else ans)
      rs

/-- Modelled from the spec: `Finder.find` (file `Finder.py` absent from
the snapshot).  With fewer than two entities the scan produces no
candidate and the empty result is returned (§4.1 steps 1–2); otherwise
the best candidate of the scan is returned. -/
def Finder.find (things : List Thing) (ft : FT) : F :=
  match allPairs things with
  | [] => { P1 := none, P2 := none }
  | r :: rs =>
    { P1 := some (pickBest ft r rs).P1, P2 := some (pickBest ft r rs).P2 }

/-- Test fixture of `test_FinderTests.setUp`: Sue, born 1950-01-01
(normalised timestamp −631152000 s). -/
def sue : Thing := { name := "Sue", birth_date := -631152000 }

/-- Test fixture of `test_FinderTests.setUp`: Greg, born 1952-06-01
(normalised timestamp −554947200 s). -/
def greg : Thing := { name := "Greg", birth_date := -554947200 }

/-- Test fixture of `test_FinderTests.setUp`: Sarah, born 1982-01-01
(normalised timestamp 378691200 s). -/
def sarah : Thing := { name := "Sarah", birth_date := 378691200 }

/-- Test fixture of `test_FinderTests.setUp`: Mike, born 1979-01-01
(normalised timestamp 283996800 s). -/
def mike : Thing := { name := "Mike", birth_date := 283996800 }

/-! ## The checked pipeline: normalisation failures -/

/-- Modelled from the spec: an entity as supplied to the finder — its
birth date may be missing (`none`), in which case normalisation fails. -/
structure PyThing where
  name : String
  birth_date : Option Datetime
  deriving DecidableEq, Repr

/-- Modelled from the spec: the error signalled on timestamp
normalisation failure (§7). -/
inductive FinderError
  | InvalidEntityError
  deriving DecidableEq, Repr

/-- Modelled from the spec: normalise one entity, signalling
`InvalidEntityError` when its timestamp is missing. -/
def normalizeEntity (t : PyThing) : Except FinderError Thing :=
  match t.birth_date with
  | none => Except.error FinderError.InvalidEntityError
  | some d => Except.ok { name := t.name, birth_date := safe_timestamp d }

/-- Modelled from the spec: normalise every entity in input order,
surfacing the first failure. -/
def normalizeAll : List PyThing → Except FinderError (List Thing)
  | [] => Except.ok []
  | x :: xs =>
    match normalizeEntity x with
    | Except.error e => Except.error e
    | Except.ok y =>
      match normalizeAll xs with
      | Except.error e => Except.error e
      | Except.ok ys => Except.ok (y :: ys)

/-- Modelled from the spec: the full `find` contract of §4.1 — the
empty-result early return of step 1 precedes any timestamp work, and a
normalisation failure during the scan is surfaced to the caller. -/
def findChecked (things : List PyThing) (ft : FT) : Except FinderError F :=
  if things.length < 2 then Except.ok { P1 := none, P2 := none }
  else
    match normalizeAll things with
    | Except.error e => Except.error e
    | Except.ok ts => Except.ok (Finder.find ts ft)

/-! ## The `User` dataclass (from `src/aetion/user_management.py`) -/

/-- The `User` dataclass: `created` is a timestamp in seconds. -/
structure UserPy where
  name : String
  email : String
  age : Int
  created : Int
  active : Bool
  login_count : Nat
  deriving DecidableEq, Repr

/-- Constructing `User(name, email, age)` without an explicit `created`:
the dataclass field default `created = datetime.datetime.now()` is an
expression evaluated once, when the class body is executed, so every
such construction receives the single value captured at definition time
(`definitionTime`), not the time of its own call. -/
def User.mk_default (definitionTime : Int) (name email : String) (age : Int) : UserPy :=
  { name := name, email := email, age := age,
    created := definitionTime, active := true, login_count := 0 }

/-- `UserManager.add_user(name, email, age)` builds
`User(name, email, age)`.  `callTime` is the wall-clock time at which
the call happens; the code never reads it, because the `created` default
was already evaluated at class-definition time. -/
def add_user (definitionTime : Int) (_callTime : Int)
    (name email : String) (age : Int) : UserPy :=
  User.mk_default definitionTime name email age

/-! ## Helper lemmas -/

theorem mkPair_eq_or (a b : Thing) :
    mkPair a b = { P1 := a, P2 := b, D := b.birth_date - a.birth_date } ∨
    mkPair a b = { P1 := b, P2 := a, D := a.birth_date - b.birth_date } := by
  unfold mkPair
  split
  · exact Or.inl rfl
  · exact Or.inr rfl

theorem mkPair_D_abs (a b : Thing) :
    (mkPair a b).D = |a.birth_date - b.birth_date| := by
  unfold mkPair
  split
  · rename_i h
    dsimp only
    rw [abs_sub_comm, abs_of_pos]
    omega
  · rename_i h
    dsimp only
    rw [abs_of_nonneg]
    omega

theorem mkPair_sorted (a b : Thing) :
    (mkPair a b).P1.birth_date ≤ (mkPair a b).P2.birth_date := by
  unfold mkPair
  split <;> dsimp only <;> omega

theorem mkPair_self_abs (a b : Thing) :
    (mkPair a b).D = |(mkPair a b).P1.birth_date - (mkPair a b).P2.birth_date| := by
  unfold mkPair
  split
  · rename_i h
    dsimp only
    rw [abs_sub_comm, abs_of_pos]
    omega
  · rename_i h
    dsimp only
    rw [abs_sub_comm, abs_of_nonneg]
    omega

theorem mem_allPairs {fr : FPair} {l : List Thing} (h : fr ∈ allPairs l) :
    ∃ a b, List.Sublist [a, b] l ∧ fr = mkPair a b := by
  induction l with
  | nil => simp [allPairs] at h
  | cons x xs ih =>
    simp only [allPairs, List.mem_append, List.mem_map] at h
    rcases h with ⟨b, hb, rfl⟩ | h
    · exact ⟨x, b, (List.singleton_sublist.mpr hb).cons₂ x, rfl⟩
    · obtain ⟨a, b, hs, rfl⟩ := ih h
      exact ⟨a, b, hs.cons x, rfl⟩

theorem allPairs_of_sublist {a b : Thing} {l : List Thing}
    (h : List.Sublist [a, b] l) : mkPair a b ∈ allPairs l := by
  induction l with
  | nil => exact absurd h (by simp)
  | cons x xs ih =>
    cases h with
    | cons _ h' => exact List.mem_append_right _ (ih h')
    | cons₂ _ h' =>
      exact List.mem_append_left _ (List.mem_map.mpr ⟨b, List.singleton_sublist.mp h', rfl⟩)

theorem get_get_sublist (l : List Thing) (i j : Nat) (hi : i < l.length)
    (hj : j < l.length) (hij : i < j) :
    List.Sublist [l.get ⟨i, hi⟩, l.get ⟨j, hj⟩] l := by
  induction l generalizing i j with
  | nil => exact absurd hi (by simp)
  | cons x xs ih =>
    cases i with
    | zero =>
      cases j with
      | zero => exact absurd hij (by omega)
      | succ j' =>
        exact (List.singleton_sublist.mpr (List.get_mem xs _ _)).cons₂ x
    | succ i' =>
      cases j with
      | zero => exact absurd hij (by omega)
      | succ j' =>
        exact (ih i' j' (by simpa using hi) (by simpa using hj) (by omega)).cons x

theorem allPairs_ne_nil {l : List Thing} (h : 2 ≤ l.length) :
    allPairs l ≠ [] := by
  match l, h with
  | a :: b :: t, _ => simp [allPairs]

theorem pickBest_mem (ft : FT) (ans : FPair) (rs : List FPair) :
    pickBest ft ans rs ∈ ans :: rs := by
  induction rs generalizing ans with
  | nil => exact List.mem_cons_self _ _
  | cons r rs ih =>
    cases ft with
    | One =>
      show pickBest FT.One (if r.D < ans.D then r else ans) rs ∈ ans :: r :: rs
      split
      · exact List.mem_cons_of_mem _ (ih r)
      · rcases List.mem_cons.mp (ih ans) with h | h
        · exact List.mem_cons.mpr (Or.inl h)
        · exact List.mem_cons_of_mem _ (List.mem_cons_of_mem _ h)
    | Two =>
      show pickBest FT.Two (if r.D > ans.D then r else ans) rs ∈ ans :: r :: rs
      split
      · exact List.mem_cons_of_mem _ (ih r)
      · rcases List.mem_cons.mp (ih ans) with h | h
        · exact List.mem_cons.mpr (Or.inl h)
        · exact List.mem_cons_of_mem _ (List.mem_cons_of_mem _ h)

theorem pickBest_one_le (ans : FPair) (rs : List FPair) :
    ∀ r ∈ ans :: rs, (pickBest FT.One ans rs).D ≤ r.D := by
  induction rs generalizing ans with
  | nil =>
    intro r hr
    rcases List.mem_cons.mp hr with rfl | h
    · exact le_rfl
    · simp at h
  | cons q rs ih =>
    intro r hr
    show (pickBest FT.One (if q.D < ans.D then q else ans) rs).D ≤ r.D
    have hself : (pickBest FT.One (if q.D < ans.D then q else ans) rs).D ≤
        (if q.D < ans.D then q else ans).D :=
      ih _ _ (List.mem_cons_self _ _)
    have hq : (if q.D < ans.D then q else ans).D ≤ q.D := by
      split <;> omega
    have hans : (if q.D < ans.D then q else ans).D ≤ ans.D := by
      split <;> omega
    rcases List.mem_cons.mp hr with rfl | hr'
    · omega
    rcases List.mem_cons.mp hr' with rfl | hr''
    · omega
    · exact ih _ _ (List.mem_cons_of_mem _ hr'')

theorem pickBest_two_ge (ans : FPair) (rs : List FPair) :
    ∀ r ∈ ans :: rs, r.D ≤ (pickBest FT.Two ans rs).D := by
  induction rs generalizing ans with
  | nil =>
    intro r hr
    rcases List.mem_cons.mp hr with rfl | h
    · exact le_rfl
    · simp at h
  | cons q rs ih =>
    intro r hr
    show r.D ≤ (pickBest FT.Two (if q.D > ans.D then q else ans) rs).D
    have hself : (if q.D > ans.D then q else ans).D ≤
        (pickBest FT.Two (if q.D > ans.D then q else ans) rs).D :=
      ih _ _ (List.mem_cons_self _ _)
    have hq : q.D ≤ (if q.D > ans.D then q else ans).D := by
      split <;> omega
    have hans : ans.D ≤ (if q.D > ans.D then q else ans).D := by
      split <;> omega
    rcases List.mem_cons.mp hr with rfl | hr'
    · omega
    rcases List.mem_cons.mp hr' with rfl | hr''
    · omega
    · exact ih _ _ (List.mem_cons_of_mem _ hr'')

theorem pickBest_first_one (ans : FPair) (rs : List FPair) :
    ∃ pre post, ans :: rs = pre ++ pickBest FT.One ans rs :: post ∧
      ∀ r ∈ pre, (pickBest FT.One ans rs).D < r.D := by
  induction rs generalizing ans with
  | nil => exact ⟨[], [], rfl, by simp⟩
  | cons q rs ih =>
    have hred : pickBest FT.One ans (q :: rs) =
        pickBest FT.One (if q.D < ans.D then q else ans) rs := rfl
    by_cases hq : q.D < ans.D
    · rw [hred, if_pos hq]
      obtain ⟨pre, post, heq, hlt⟩ := ih q
      refine ⟨ans :: pre, post, ?_, ?_⟩
      · rw [List.cons_append, ← heq]
      · intro r hr
        rcases List.mem_cons.mp hr with rfl | hr'
        · have h1 : (pickBest FT.One q rs).D ≤ q.D :=
            pickBest_one_le q rs q (List.mem_cons_self _ _)
          omega
        · exact hlt r hr'
    · rw [hred, if_neg hq]
      obtain ⟨pre, post, heq, hlt⟩ := ih ans
      cases pre with
      | nil =>
        simp only [List.nil_append] at heq
        injection heq with h1 h2
        refine ⟨[], q :: rs, ?_, by simp⟩
        rw [← h1, List.nil_append]
      | cons p pre' =>
        simp only [List.cons_append] at heq
        injection heq with h1 h2
        have hans : (pickBest FT.One ans rs).D < ans.D := by
          have h := hlt p (List.mem_cons_self _ _)
          rw [← h1] at h
          exact h
        refine ⟨ans :: q :: pre', post, ?_, ?_⟩
        · rw [List.cons_append, List.cons_append, ← h2]
        · intro r hr
          rcases List.mem_cons.mp hr with rfl | hr'
          · exact hans
          rcases List.mem_cons.mp hr' with rfl | hr''
          · omega
          · exact hlt r (List.mem_cons_of_mem _ hr'')

theorem pickBest_first_two (ans : FPair) (rs : List FPair) :
    ∃ pre post, ans :: rs = pre ++ pickBest FT.Two ans rs :: post ∧
      ∀ r ∈ pre, r.D < (pickBest FT.Two ans rs).D := by
  induction rs generalizing ans with
  | nil => exact ⟨[], [], rfl, by simp⟩
  | cons q rs ih =>
    have hred : pickBest FT.Two ans (q :: rs) =
        pickBest FT.Two (if q.D > ans.D then q else ans) rs := rfl
    by_cases hq : q.D > ans.D
    · rw [hred, if_pos hq]
      obtain ⟨pre, post, heq, hlt⟩ := ih q
      refine ⟨ans :: pre, post, ?_, ?_⟩
      · rw [List.cons_append, ← heq]
      · intro r hr
        rcases List.mem_cons.mp hr with rfl | hr'
        · have h1 : q.D ≤ (pickBest FT.Two q rs).D :=
            pickBest_two_ge q rs q (List.mem_cons_self _ _)
          omega
        · exact hlt r hr'
    · rw [hred, if_neg hq]
      obtain ⟨pre, post, heq, hlt⟩ := ih ans
      cases pre with
      | nil =>
        simp only [List.nil_append] at heq
        injection heq with h1 h2
        refine ⟨[], q :: rs, ?_, by simp⟩
        rw [← h1, List.nil_append]
      | cons p pre' =>
        simp only [List.cons_append] at heq
        injection heq with h1 h2
        have hans : ans.D < (pickBest FT.Two ans rs).D := by
          have h := hlt p (List.mem_cons_self _ _)
          rw [← h1] at h
          exact h
        refine ⟨ans :: q :: pre', post, ?_, ?_⟩
        · rw [List.cons_append, List.cons_append, ← h2]
        · intro r hr
          rcases List.mem_cons.mp hr with rfl | hr'
          · exact hans
          rcases List.mem_cons.mp hr' with rfl | hr''
          · omega
          · exact hlt r (List.mem_cons_of_mem _ hr'')

/-! ## Claim theorems -/

/-- C1: for every input sequence of at least 2 entities, the pair
returned by `find` is extremal among all pairs — in Closest mode
(`FT.One`) its absolute timestamp separation is ≤ the separation of
every other pair of input entities, and in Furthest mode (`FT.Two`) its
separation is ≥ the separation of every other pair. -/
theorem C1_find_extremal (things : List Thing) (ft : FT)
    (h : 2 ≤ things.length) :
    ∃ a b, (Finder.find things ft).P1 = some a ∧
      (Finder.find things ft).P2 = some b ∧
      ∀ i j (hi : i < things.length) (hj : j < things.length), i ≠ j →
        (ft = FT.One →
          |a.birth_date - b.birth_date| ≤
            |(things.get ⟨i, hi⟩).birth_date - (things.get ⟨j, hj⟩).birth_date|) ∧
        (ft = FT.Two →
          |(things.get ⟨i, hi⟩).birth_date - (things.get ⟨j, hj⟩).birth_date| ≤
            |a.birth_date - b.birth_date|) := by
  obtain ⟨r, rs, heq⟩ := List.exists_cons_of_ne_nil (allPairs_ne_nil h)
  have hfind : Finder.find things ft =
      { P1 := some (pickBest ft r rs).P1, P2 := some (pickBest ft r rs).P2 } := by
    unfold Finder.find
    rw [heq]
  have hmem : pickBest ft r rs ∈ allPairs things := by
    rw [heq]
    exact pickBest_mem ft r rs
  obtain ⟨a0, b0, hsub, hmk⟩ := mem_allPairs hmem
  have habs : (pickBest ft r rs).D =
      |(pickBest ft r rs).P1.birth_date - (pickBest ft r rs).P2.birth_date| := by
    rw [hmk]
    exact mkPair_self_abs a0 b0
  have key : ∀ p q : Thing, List.Sublist [p, q] things →
      (ft = FT.One → (pickBest ft r rs).D ≤ |p.birth_date - q.birth_date|) ∧
      (ft = FT.Two → |p.birth_date - q.birth_date| ≤ (pickBest ft r rs).D) := by
    intro p q hpq
    have hm : mkPair p q ∈ r :: rs := by
      rw [← heq]
      exact allPairs_of_sublist hpq
    constructor
    · rintro rfl
      have h1 := pickBest_one_le r rs _ hm
      rw [mkPair_D_abs] at h1
      exact h1
    · rintro rfl
      have h1 := pickBest_two_ge r rs _ hm
      rw [mkPair_D_abs] at h1
      exact h1
  refine ⟨(pickBest ft r rs).P1, (pickBest ft r rs).P2, by rw [hfind], by rw [hfind], ?_⟩
  intro i j hi hj hij
  rcases Nat.lt_or_ge i j with hlt | hge
  · have hk := key _ _ (get_get_sublist things i j hi hj hlt)
    rw [habs] at hk
    exact hk
  · have hlt' : j < i := by omega
    have hk := key _ _ (get_get_sublist things j i hj hi hlt')
    rw [habs] at hk
    constructor
    · intro hft
      rw [abs_sub_comm (things.get ⟨i, hi⟩).birth_date]
      exact hk.1 hft
    · intro hft
      rw [abs_sub_comm (things.get ⟨i, hi⟩).birth_date]
      exact hk.2 hft

/-- Witness for C1 at the four-entity test input of
`test_FinderTests`, in Closest mode. -/
theorem C1_find_extremal_witness :
    2 ≤ ([sue, sarah, mike, greg] : List Thing).length ∧
    (∃ a b, (Finder.find [sue, sarah, mike, greg] FT.One).P1 = some a ∧
      (Finder.find [sue, sarah, mike, greg] FT.One).P2 = some b ∧
      ∀ i j (hi : i < ([sue, sarah, mike, greg] : List Thing).length)
          (hj : j < ([sue, sarah, mike, greg] : List Thing).length), i ≠ j →
        (FT.One = FT.One →
          |a.birth_date - b.birth_date| ≤
            |(([sue, sarah, mike, greg] : List Thing).get ⟨i, hi⟩).birth_date -
              (([sue, sarah, mike, greg] : List Thing).get ⟨j, hj⟩).birth_date|) ∧
        (FT.One = FT.Two →
          |(([sue, sarah, mike, greg] : List Thing).get ⟨i, hi⟩).birth_date -
              (([sue, sarah, mike, greg] : List Thing).get ⟨j, hj⟩).birth_date| ≤
            |a.birth_date - b.birth_date|)) :=
  ⟨by decide, C1_find_extremal [sue, sarah, mike, greg] FT.One (by decide)⟩

/-- C2: for every input with fewer than 2 entities (empty or singleton)
and either mode, the finder raises no exception and returns a result
whose fields are both unset — both for the checked pipeline over raw
entities and for the core scan over normalised entities. -/
theorem C2_small_input_empty (pythings : List PyThing) (things : List Thing)
    (ft : FT) (h1 : pythings.length < 2) (h2 : things.length < 2) :
    findChecked pythings ft = Except.ok { P1 := none, P2 := none } ∧
    Finder.find things ft = { P1 := none, P2 := none } := by
  constructor
  · unfold findChecked
    rw [if_pos h1]
  · have hall : allPairs things = [] := by
      cases things with
      | nil => rfl
      | cons x xs =>
        cases xs with
        | nil => rfl
        | cons y ys =>
          simp only [List.length_cons] at h2
          omega
    unfold Finder.find
    rw [hall]

/-- Witness for C2 at the empty input in Closest mode. -/
theorem C2_small_input_empty_witness :
    ([] : List PyThing).length < 2 ∧ ([] : List Thing).length < 2 ∧
    (findChecked [] FT.One = Except.ok { P1 := none, P2 := none } ∧
      Finder.find [] FT.One = { P1 := none, P2 := none }) :=
  ⟨by decide, by decide, C2_small_input_empty [] [] FT.One (by decide) (by decide)⟩

/-- C3: for every input of exactly 2 entities and for both modes, `find`
returns exactly those two entities as the pair. -/
theorem C3_two_entities (a b : Thing) (ft : FT) :
    Finder.find [a, b] ft = { P1 := some a, P2 := some b } ∨
    Finder.find [a, b] ft = { P1 := some b, P2 := some a } := by
  have hfind : Finder.find [a, b] ft =
      { P1 := some (mkPair a b).P1, P2 := some (mkPair a b).P2 } := rfl
  rcases mkPair_eq_or a b with h | h
  · left
    rw [hfind, h]
  · right
    rw [hfind, h]

/-- C4: the returned pair is the first extremal candidate of the
`i < j` input-order scan (`allPairs` enumerates that scan in order):
every candidate strictly before it is strictly worse for the selected
mode, and no candidate anywhere is strictly better — the tracker moves
only on strict inequality. -/
theorem C4_first_extremal (things : List Thing) (ft : FT)
    (h : 2 ≤ things.length) :
    ∃ best pre post, allPairs things = pre ++ best :: post ∧
      (Finder.find things ft).P1 = some best.P1 ∧
      (Finder.find things ft).P2 = some best.P2 ∧
      (∀ r ∈ allPairs things,
        (ft = FT.One → best.D ≤ r.D) ∧ (ft = FT.Two → r.D ≤ best.D)) ∧
      (∀ r ∈ pre,
        (ft = FT.One → best.D < r.D) ∧ (ft = FT.Two → r.D < best.D)) := by
  obtain ⟨r, rs, heq⟩ := List.exists_cons_of_ne_nil (allPairs_ne_nil h)
  have hfind : Finder.find things ft =
      { P1 := some (pickBest ft r rs).P1, P2 := some (pickBest ft r rs).P2 } := by
    unfold Finder.find
    rw [heq]
  cases ft with
  | One =>
    obtain ⟨pre, post, hdec, hlt⟩ := pickBest_first_one r rs
    refine ⟨pickBest FT.One r rs, pre, post, by rw [heq, hdec],
      by rw [hfind], by rw [hfind], ?_, ?_⟩
    · intro q hq
      rw [heq] at hq
      exact ⟨fun _ => pickBest_one_le r rs q hq, fun hc => FT.noConfusion hc⟩
    · intro q hq
      exact ⟨fun _ => hlt q hq, fun hc => FT.noConfusion hc⟩
  | Two =>
    obtain ⟨pre, post, hdec, hlt⟩ := pickBest_first_two r rs
    refine ⟨pickBest FT.Two r rs, pre, post, by rw [heq, hdec],
      by rw [hfind], by rw [hfind], ?_, ?_⟩
    · intro q hq
      rw [heq] at hq
      exact ⟨fun hc => FT.noConfusion hc, fun _ => pickBest_two_ge r rs q hq⟩
    · intro q hq
      exact ⟨fun hc => FT.noConfusion hc, fun _ => hlt q hq⟩

/-- Witness for C4 at the four-entity test input in Furthest mode. -/
theorem C4_first_extremal_witness :
    2 ≤ ([sue, sarah, mike, greg] : List Thing).length ∧
    (∃ best pre post,
      allPairs [sue, sarah, mike, greg] = pre ++ best :: post ∧
      (Finder.find [sue, sarah, mike, greg] FT.Two).P1 = some best.P1 ∧
      (Finder.find [sue, sarah, mike, greg] FT.Two).P2 = some best.P2 ∧
      (∀ r ∈ allPairs [sue, sarah, mike, greg],
        (FT.Two = FT.One → best.D ≤ r.D) ∧ (FT.Two = FT.Two → r.D ≤ best.D)) ∧
      (∀ r ∈ pre,
        (FT.Two = FT.One → best.D < r.D) ∧ (FT.Two = FT.Two → r.D < best.D))) :=
  ⟨by decide, C4_first_extremal [sue, sarah, mike, greg] FT.Two (by decide)⟩

/-- C5 as stated is false on the code: in the two-entity Furthest test
of `test_FinderTests`, Mike appears before Greg in the input, yet the
returned pair lists Greg first — the pair is ordered by birth date, not
by input position. -/
theorem C5_counterexample :
    Finder.find [mike, greg] FT.Two = { P1 := some greg, P2 := some mike } ∧
    (Finder.find [mike, greg] FT.Two).P1 ≠ some mike ∧
    mike ≠ greg := by decide

/-- C5 amended: for every input of at least 2 entities and either mode,
the returned pair is ordered by normalised timestamp — the entity with
the earlier (or, on a tie, equal) timestamp is listed first. -/
theorem C5_amended_order (things : List Thing) (ft : FT)
    (h : 2 ≤ things.length) :
    ∃ a b, (Finder.find things ft).P1 = some a ∧
      (Finder.find things ft).P2 = some b ∧
      a.birth_date ≤ b.birth_date := by
  obtain ⟨r, rs, heq⟩ := List.exists_cons_of_ne_nil (allPairs_ne_nil h)
  have hfind : Finder.find things ft =
      { P1 := some (pickBest ft r rs).P1, P2 := some (pickBest ft r rs).P2 } := by
    unfold Finder.find
    rw [heq]
  have hmem : pickBest ft r rs ∈ allPairs things := by
    rw [heq]
    exact pickBest_mem ft r rs
  obtain ⟨a0, b0, hsub, hmk⟩ := mem_allPairs hmem
  refine ⟨(pickBest ft r rs).P1, (pickBest ft r rs).P2,
    by rw [hfind], by rw [hfind], ?_⟩
  rw [hmk]
  exact mkPair_sorted a0 b0

/-- Witness for the amended C5 at the two-entity Furthest test input. -/
theorem C5_amended_order_witness :
    2 ≤ ([mike, greg] : List Thing).length ∧
    (∃ a b, (Finder.find [mike, greg] FT.Two).P1 = some a ∧
      (Finder.find [mike, greg] FT.Two).P2 = some b ∧
      a.birth_date ≤ b.birth_date) :=
  ⟨by decide, C5_amended_order [mike, greg] FT.Two (by decide)⟩

/-- C6: for every input of at least 2 entities and either mode, both
entities of the returned pair are elements of the input collection. -/
theorem C6_members_of_input (things : List Thing) (ft : FT)
    (h : 2 ≤ things.length) :
    ∃ a b, (Finder.find things ft).P1 = some a ∧
      (Finder.find things ft).P2 = some b ∧
      a ∈ things ∧ b ∈ things := by
  obtain ⟨r, rs, heq⟩ := List.exists_cons_of_ne_nil (allPairs_ne_nil h)
  have hfind : Finder.find things ft =
      { P1 := some (pickBest ft r rs).P1, P2 := some (pickBest ft r rs).P2 } := by
    unfold Finder.find
    rw [heq]
  have hmem : pickBest ft r rs ∈ allPairs things := by
    rw [heq]
    exact pickBest_mem ft r rs
  obtain ⟨a0, b0, hsub, hmk⟩ := mem_allPairs hmem
  have ha0 : a0 ∈ things := hsub.subset (by simp)
  have hb0 : b0 ∈ things := hsub.subset (by simp)
  refine ⟨(pickBest ft r rs).P1, (pickBest ft r rs).P2,
    by rw [hfind], by rw [hfind], ?_, ?_⟩
  · rcases mkPair_eq_or a0 b0 with h' | h' <;> rw [hmk, h']
    · exact ha0
    · exact hb0
  · rcases mkPair_eq_or a0 b0 with h' | h' <;> rw [hmk, h']
    · exact hb0
    · exact ha0

/-- Witness for C6 at the four-entity test input in Closest mode. -/
theorem C6_members_of_input_witness :
    2 ≤ ([sue, sarah, mike, greg] : List Thing).length ∧
    (∃ a b, (Finder.find [sue, sarah, mike, greg] FT.One).P1 = some a ∧
      (Finder.find [sue, sarah, mike, greg] FT.One).P2 = some b ∧
      a ∈ [sue, sarah, mike, greg] ∧ b ∈ [sue, sarah, mike, greg]) :=
  ⟨by decide, C6_members_of_input [sue, sarah, mike, greg] FT.One (by decide)⟩

/-- `safe_timestamp` computes exactly the UTC instant a timestamp
denotes (shared helper). -/
theorem safe_timestamp_eq_instantUTC (dt : Datetime) :
    safe_timestamp dt = instantUTC dt := by
  cases dt with
  | mk wall tz =>
    cases tz with
    | none =>
      simp [safe_timestamp, instantUTC, dtSub, replace_utc, epoch]
    | some off =>
      simp [safe_timestamp, instantUTC, dtSub, astimezone_utc, epoch]

/-- C7: timestamp normalisation maps every timestamp to seconds since
the 1970-01-01 UTC epoch — a naive datetime is read as UTC, an aware
one is converted to UTC first — so `safe_timestamp` agrees with the
denoted instant, and two timestamps denote the same instant exactly
when they normalise to the same value. -/
theorem C7_safe_timestamp_epoch_utc :
    (∀ dt : Datetime, safe_timestamp dt = instantUTC dt) ∧
    (∀ dt1 dt2 : Datetime,
      instantUTC dt1 = instantUTC dt2 ↔
        safe_timestamp dt1 = safe_timestamp dt2) :=
  ⟨safe_timestamp_eq_instantUTC, fun d1 d2 => by
    rw [safe_timestamp_eq_instantUTC, safe_timestamp_eq_instantUTC]⟩

/-- C8 as stated is false on the spec's own algorithm: step 1 returns
the empty result for inputs of fewer than 2 entities before any
timestamp work, so a singleton input whose only entity has a missing
timestamp yields the empty result rather than `InvalidEntityError`. -/
theorem C8_counterexample :
    findChecked [{ name := "Sue", birth_date := none }] FT.One =
      Except.ok { P1 := none, P2 := none } ∧
    ({ name := "Sue", birth_date := none } : PyThing).birth_date = none :=
  ⟨rfl, rfl⟩

/-- `normalizeAll` fails exactly when some entity's timestamp is
missing (shared helper). -/
theorem normalizeAll_error_iff (l : List PyThing) :
    normalizeAll l = Except.error FinderError.InvalidEntityError ↔
      ∃ t ∈ l, t.birth_date = none := by
  induction l with
  | nil => simp [normalizeAll]
  | cons x xs ih =>
    unfold normalizeAll
    cases hx : normalizeEntity x with
    | error e =>
      have hxn : x.birth_date = none := by
        unfold normalizeEntity at hx
        cases hbd : x.birth_date with
        | none => rfl
        | some d =>
          rw [hbd] at hx
          exact Except.noConfusion hx
      cases e
      exact ⟨fun _ => ⟨x, List.mem_cons_self _ _, hxn⟩, fun _ => rfl⟩
    | ok y =>
      have hxn : x.birth_date ≠ none := by
        unfold normalizeEntity at hx
        cases hbd : x.birth_date with
        | none =>
          rw [hbd] at hx
          exact Except.noConfusion hx
        | some d => simp [hbd]
      cases hrest : normalizeAll xs with
      | error e =>
        cases e
        rw [hrest] at ih
        obtain ⟨t, ht, htn⟩ := ih.mp rfl
        exact ⟨fun _ => ⟨t, List.mem_cons_of_mem _ ht, htn⟩, fun _ => rfl⟩
      | ok ys =>
        rw [hrest] at ih
        constructor
        · intro hok
          exact Except.noConfusion hok
        · rintro ⟨t, ht, htn⟩
          rcases List.mem_cons.mp ht with rfl | ht'
          · exact absurd htn hxn
          · exact Except.noConfusion (ih.mpr ⟨t, ht', htn⟩)

/-- C8 amended: for every input of at least 2 entities and either mode,
`find` raises `InvalidEntityError` to the caller exactly when some
entity's timestamp fails normalisation — malformed entities are never
silently skipped. -/
theorem C8_amended_error_iff (things : List PyThing) (ft : FT)
    (h : 2 ≤ things.length) :
    findChecked things ft = Except.error FinderError.InvalidEntityError ↔
      ∃ t ∈ things, t.birth_date = none := by
  unfold findChecked
  rw [if_neg (by omega)]
  cases hN : normalizeAll things with
  | error e =>
    cases e
    constructor
    · intro _
      exact (normalizeAll_error_iff things).mp hN
    · intro _
      rfl
  | ok ts =>
    constructor
    · intro hok
      exact Except.noConfusion hok
    · intro hex
      have hcontra := (normalizeAll_error_iff things).mpr hex
      rw [hN] at hcontra
      exact Except.noConfusion hcontra

/-- Witness for the amended C8: a two-entity input whose second entity
has a missing timestamp. -/
theorem C8_amended_error_iff_witness :
    2 ≤ ([⟨"Sue", some ⟨-631152000, none⟩⟩, ⟨"Greg", none⟩] : List PyThing).length ∧
    (findChecked [⟨"Sue", some ⟨-631152000, none⟩⟩, ⟨"Greg", none⟩] FT.One =
        Except.error FinderError.InvalidEntityError ↔
      ∃ t ∈ ([⟨"Sue", some ⟨-631152000, none⟩⟩, ⟨"Greg", none⟩] : List PyThing),
        t.birth_date = none) :=
  ⟨by decide, C8_amended_error_iff _ FT.One (by decide)⟩

/-- C9 is violated by the code: the dataclass default
`created = datetime.datetime.now()` in `User` is evaluated once at
class-definition time, so two `Users` built by successive
`UserManager.add_user` calls at different wall-clock times share the
same stale `created` value — here definition time 100, calls at 200 and
300 both yield `created = 100`. -/
theorem C9_stale_default_evidence :
    (add_user 100 200 "John Doe" "john@email.com" 25).created =
      (add_user 100 300 "Jane Smith" "jane@email.com" 30).created ∧
    (add_user 100 200 "John Doe" "john@email.com" 25).created = 100 ∧
    (add_user 100 200 "John Doe" "john@email.com" 25).created ≠ 200 ∧
    (200 : Int) ≠ 300 := by decide

/-- C10: `safe_timestamp` is a total function on the datetime model —
pre-epoch instants simply yield negative values — and it preserves the
chronological order of the denoted instants, strictly and weakly. -/
theorem C10_safe_timestamp_monotone :
    (∀ dt1 dt2 : Datetime, instantUTC dt1 < instantUTC dt2 ↔
      safe_timestamp dt1 < safe_timestamp dt2) ∧
    (∀ dt1 dt2 : Datetime, instantUTC dt1 ≤ instantUTC dt2 ↔
      safe_timestamp dt1 ≤ safe_timestamp dt2) ∧
    (∀ dt : Datetime, instantUTC dt < 0 ↔ safe_timestamp dt < 0) :=
  ⟨fun d1 d2 => by rw [safe_timestamp_eq_instantUTC, safe_timestamp_eq_instantUTC],
   fun d1 d2 => by rw [safe_timestamp_eq_instantUTC, safe_timestamp_eq_instantUTC],
   fun dt => by rw [safe_timestamp_eq_instantUTC]⟩
